import Mathlib

/-!
Shallow embedding of the quiz room session engine of `src/main.py`.

Conventions of the embedding:
* Wall-clock time (`time.time()`) is passed explicitly as an integer `now`
  (the source truncates elapsed times with `int(...)`, so integer seconds
  suffice for all values the engine stores and compares).
* Python dicts that preserve insertion order (`rooms[code]["students"]`) are
  embedded as association lists; overwriting an existing key keeps its
  position, a new key is appended at the end, exactly as in CPython.
* A Python exception (IndexError on `r["quiz"][r["current"]]`, TypeError on
  `time.time() - None`) is embedded as `none`: every exception the engine can
  raise occurs before any mutation of the room, so the room is unchanged.
* `random.choice` / `random.sample` / `random.shuffle` are driven by an
  explicit oracle `Nat → Nat`, and the unbounded `while` loop of
  `generate_mcqs` is given explicit fuel: `none` means the loop has not
  terminated within the given fuel, for any amount of fuel.
-/

namespace Quizyfi

/-- One answer record appended to a student's `answers` history
(`src/main.py` lines 182–187 for submissions, 229–234 for timeouts). -/
structure AnswerRec where
  question : String
  selected : Option String
  correct : String
  is_correct : Bool
deriving DecidableEq, Repr

/-- One generated multiple-choice question (`src/main.py` lines 115–119). -/
structure Question where
  q : String
  options : List String
  answer : String
deriving DecidableEq, Repr

/-- A per-participant record (`src/main.py` lines 144–150). -/
structure Student where
  score : Nat
  answered : Bool
  times : List Int
  answers : List AnswerRec
  q_start : Option Int
deriving DecidableEq, Repr

/-- A room's state (`src/main.py` lines 128–136). -/
structure Room where
  quiz : List Question
  students : List (String × Student)
  current : Nat
  started : Bool
  ended : Bool
  duration : Int
  start_time : Option Int
deriving DecidableEq, Repr

/-- Lookup in an insertion-ordered dict embedded as an association list. -/
def dictGet (k : String) : List (String × Student) → Option Student
  | [] => none
  | p :: rest => if p.1 = k then some p.2 else dictGet k rest

/-- `d[k] = v` on a Python dict: overwrite keeps the key's position, a new
key is appended at the end. -/
def dictInsert (k : String) (v : Student) : List (String × Student) → List (String × Student)
  | [] => [(k, v)]
  | p :: rest => if p.1 = k then (k, v) :: rest else p :: dictInsert k v rest

/-- One leaderboard entry (`src/main.py` lines 202–207). -/
structure LBEntry where
  name : String
  score : Nat
  total_time : Int
  answers : List AnswerRec
deriving DecidableEq, Repr

/-- The unsorted leaderboard entries, one per student in dict order
(`src/main.py` lines 202–207): `score` and `total_time` are computed (copied)
at this point, while `answers` refers to the student's mutable list. -/
def lbEntries (students : List (String × Student)) : List LBEntry :=
  students.map (fun p => ⟨p.1, p.2.score, p.2.times.sum, p.2.answers⟩)

/-- The order given by the sort key `(-score, total_time)` of
`src/main.py` line 208. -/
def lbLe (a b : LBEntry) : Prop :=
  b.score < a.score ∨ (a.score = b.score ∧ a.total_time ≤ b.total_time)

instance : DecidableRel lbLe := fun a b => by
  unfold lbLe; infer_instance

instance : IsTotal LBEntry lbLe where
  total a b := by
    unfold lbLe
    rcases Nat.lt_trichotomy a.score b.score with h | h | h
    · exact Or.inr (Or.inl h)
    · rcases le_total a.total_time b.total_time with ht | ht
      · exact Or.inl (Or.inr ⟨h, ht⟩)
      · exact Or.inr (Or.inr ⟨h.symm, ht⟩)
    · exact Or.inl (Or.inl h)

instance : IsTrans LBEntry lbLe where
  trans a b c hab hbc := by
    unfold lbLe at *
    rcases hab with h1 | ⟨h1, t1⟩
    · rcases hbc with h2 | ⟨h2, _⟩
      · exact Or.inl (h2.trans h1)
      · exact Or.inl (h2 ▸ h1)
    · rcases hbc with h2 | ⟨h2, t2⟩
      · exact Or.inl (h1 ▸ h2)
      · exact Or.inr ⟨h1.trans h2, t1.trans t2⟩

/-- The sorted leaderboard (`src/main.py` lines 201–209).  Python's `sorted`
is a stable sort by the key `(-score, total_time)`; `List.insertionSort` is
likewise stable, so it computes the same list for this total preorder. -/
def leaderboard (students : List (String × Student)) : List LBEntry :=
  List.insertionSort lbLe (lbEntries students)

/-- Result of `submit` (and of `join_room`): `{"error": ...}` or `{"ok": True}`. -/
inductive SubmitResp
  | invalid
  | ok
deriving DecidableEq, Repr

/-- The three response shapes of `state` (`src/main.py` lines 211–258). -/
inductive StateResp
  | roomEnded (leaderboard : List LBEntry)
  | notStarted (students : List String)
  | active (question : String) (options : List String) (remaining : Int)
      (qno : Nat) (total : Nat) (leaderboard : List LBEntry)
deriving DecidableEq, Repr

/-- A freshly created room (`src/main.py` lines 128–136); the generated quiz
is a parameter (see `generate_mcqs` below for the generator itself). -/
def mkRoom (quiz : List Question) : Room :=
  { quiz := quiz, students := [], current := 0, started := false, ended := false,
    duration := 30, start_time := none }

/-- `join_room` (`src/main.py` lines 139–151) on an existing room (the
room-existence check of line 141 lives at the store; for a present room the
body always runs and returns ok).  Note line 149: `q_start` is set to `None`
unconditionally, whether or not the room has been started. -/
def join_room (r : Room) (nm : String) : Room :=
  { r with students := dictInsert nm ⟨0, false, [], [], none⟩ r.students }

/-- `start_quiz` (`src/main.py` lines 153–165) on an existing room: stamps
`started`, `start_time` and every present student's `q_start` to now. -/
def start_quiz (r : Room) (now : Int) : Room :=
  { r with started := true, start_time := some now,
           students := r.students.map (fun p => (p.1, { p.2 with q_start := some now })) }

/-- `submit` (`src/main.py` lines 167–193) on an existing room.  `none` means
the handler raised: IndexError at line 178 when `current` is past the quiz,
TypeError at line 179 when `q_start` is still `None`; both happen before any
mutation.  The `answered` short-circuit of line 175 precedes both. -/
def submit (r : Room) (nm : String) (ans : Option String) (now : Int) :
    Option (Room × SubmitResp) :=
  match dictGet nm r.students with
  | none => some (r, .invalid)
  | some s =>
    if s.answered then some (r, .ok)
    else
      match r.quiz.get? r.current with
      | none => none
      | some q =>
        match s.q_start with
        | none => none
        | some qs =>
          let elapsed : Int := now - qs
          let s' : Student :=
            { s with
              times := s.times ++ [elapsed],
              answers := s.answers ++ [⟨q.q, ans, q.answer, decide (ans = some q.answer)⟩],
              score := s.score + (if ans = some q.answer then 1 else 0),
              answered := true }
          some ({ r with students := dictInsert nm s' r.students }, .ok)

/-- The per-student bookkeeping of the lazy advance
(`src/main.py` lines 226–237): a timeout entry for students who have not
answered, then `answered` cleared and `q_start` restamped for everyone. -/
def advanceStudent (dur : Int) (q : Question) (now : Int) (s : Student) : Student :=
  let s1 := if s.answered then s else
    { s with times := s.times ++ [dur],
             answers := s.answers ++ [⟨q.q, none, q.answer, false⟩] }
  { s1 with answered := false, q_start := some now }

/-- The leaderboard dicts built at `src/main.py` lines 201–209 hold the very
list objects `s["answers"]`; when the advance appends timeout records to
those lists, the already-assembled leaderboard shows the grown lists (while
its `score` and `total_time` numbers stay the pre-advance copies).  This
function applies that aliasing to an assembled leaderboard. -/
def refreshAnswers (lb : List LBEntry) (students : List (String × Student)) : List LBEntry :=
  lb.map (fun e =>
    match dictGet e.name students with
    | some s => { e with answers := s.answers }
    | none => e)

/-- `state` (`src/main.py` lines 195–258) on an existing room.  `none` means
the handler raised: TypeError at line 220 when `start_time` is `None`,
IndexError at line 224 or 248 when `current` indexes past the quiz; each
happens before any mutation of the room. -/
def state (r : Room) (now : Int) : Option (Room × StateResp) :=
  let lb := leaderboard r.students
  if r.ended then some (r, .roomEnded lb)
  else if r.started = false then some (r, .notStarted (r.students.map Prod.fst))
  else
    match r.start_time with
    | none => none
    | some st =>
      let elapsed : Int := now - st
      let remaining : Int := r.duration - elapsed
      if remaining ≤ 0 then
        match r.quiz.get? r.current with
        | none => none
        | some q =>
          let students' := r.students.map (fun p => (p.1, advanceStudent r.duration q now p.2))
          if r.quiz.length ≤ r.current + 1 then
            let r' : Room :=
              { r with students := students', current := r.current + 1, ended := true }
            some (r', .roomEnded (refreshAnswers lb students'))
          else
            let r' : Room :=
              { r with students := students', current := r.current + 1, start_time := some now }
            match r'.quiz.get? r'.current with
            | none => none
            | some q2 =>
              some (r', .active q2.q q2.options r.duration (r'.current + 1) r'.quiz.length
                (refreshAnswers lb students'))
      else
        match r.quiz.get? r.current with
        | none => none
        | some q2 =>
          some (r, .active q2.q q2.options remaining (r.current + 1) r.quiz.length lb)

/-- One engine operation on a room, with its wall-clock argument. -/
inductive Op
  | join (nm : String)
  | start (now : Int)
  | submitOp (nm : String) (ans : Option String) (now : Int)
  | inspect (now : Int)

/-- The room after one operation.  When the handler raises (`none`), the room
is unchanged, because every exception in `submit` and `state` occurs before
any mutation (see their doc comments). -/
def applyOp (r : Room) : Op → Room
  | .join nm => join_room r nm
  | .start now => start_quiz r now
  | .submitOp nm ans now =>
    match submit r nm ans now with
    | some (r', _) => r'
    | none => r
  | .inspect now =>
    match state r now with
    | some (r', _) => r'
    | none => r

/-- The room after a sequence of operations. -/
def applyOps (r : Room) (ops : List Op) : Room :=
  ops.foldl applyOp r

/-! ### The quiz generator (`src/main.py` lines 48–121)

`wiki_text` performs network I/O, so the raw text it returns is a parameter
of the embedding; the empty string is exactly what `wiki_text` returns when
the wikipedia module or both lookups are unavailable (lines 53–63). -/

/-- Python's `needle in hay` on strings: substring containment. -/
def pySubstr (needle : List Char) : List Char → Bool
  | [] => needle.isEmpty
  | c :: t => needle.isPrefixOf (c :: t) || pySubstr needle t

/-- Splitting on whitespace runs, dropping empty pieces: Python's
`text.split()` with no argument. -/
def pyWordsAux : List Char → List Char → List String
  | [], acc => if acc.isEmpty then [] else [String.mk acc.reverse]
  | c :: rest, acc =>
    if c.isWhitespace then
      if acc.isEmpty then pyWordsAux rest [] else String.mk acc.reverse :: pyWordsAux rest []
    else pyWordsAux rest (c :: acc)

/-- Python `text.split()` on a character list. -/
def pyWordsL (cs : List Char) : List String :=
  pyWordsAux cs []

/-- Python `text.split()` on a string. -/
def pyWords (s : String) : List String :=
  pyWordsL s.data

/-- The length of `dropWhile` never exceeds the length of the input. -/
theorem length_dropWhile_le (p : Char → Bool) (l : List Char) :
    (l.dropWhile p).length ≤ l.length := by
  induction l with
  | nil => simp
  | cons c t ih =>
    by_cases h : p c
    · simpa [List.dropWhile, h] using Nat.le_succ_of_le ih
    · simp [List.dropWhile, h]

/-- Recursion core of `removeParens`, structurally recursive on a fuel that
starts at the length of the input; each step consumes at least one character
(the skip branch drops through the first `)`), so the fuel-exhausted case is
unreachable and the fuel is only a termination device. -/
def removeParensAux : Nat → List Char → List Char
  | _, [] => []
  | 0, l => l
  | f + 1, c :: rest =>
    if c = '(' ∧ rest.contains ')' then
      removeParensAux f ((rest.dropWhile (fun d => d ≠ ')')).tail)
    else
      c :: removeParensAux f rest

/-- `re.sub(r"\([^)]*\)", "", text)` of `src/main.py` line 49: each `(`,
its following characters up to (and including) the first `)`, is removed;
a `(` with no later `)` stays.  Matches are found left to right and do not
overlap, which is exactly this recursion. -/
def removeParens (l : List Char) : List Char :=
  removeParensAux l.length l

/-- `re.sub(r"[^a-zA-Z0-9. ]", " ", text)` of `src/main.py` line 50, one
character at a time. -/
def sanitizeChar (c : Char) : Char :=
  if c.isAlpha || c.isDigit || c = '.' || c = ' ' then c else ' '

/-- `clean` (`src/main.py` lines 48–51).  The final step
`re.sub(r"\s+", " ", text).strip()` collapses every whitespace run to one
space and strips the ends, which is the single-space join of the
whitespace-split words. -/
def clean (text : String) : String :=
  String.intercalate " " (pyWordsL ((removeParens text.data).map sanitizeChar))

/-- Whether a word starts with an (ASCII) uppercase letter:
`w[0].isupper()` guarded by `w` being nonempty. -/
def headIsUpper (w : String) : Bool :=
  match w.data with
  | [] => false
  | c :: _ => c.isUpper

/-- `extract_concepts` (`src/main.py` lines 65–78): a first pass keeping
capitalised words longer than 4, a second pass (only when fewer than 6 were
found) adding words longer than 7, both deduplicating against the list built
so far, then truncation to 40. -/
def extract_concepts (text : String) : List String :=
  let words := pyWords text
  let concepts := words.foldl (fun acc w =>
    if !w.isEmpty && headIsUpper w && decide (w.length > 4) && !(acc.contains w)
    then acc ++ [w] else acc) []
  let concepts := if concepts.length < 6 then
      words.foldl (fun acc w =>
        if decide (w.length > 7) && !(acc.contains w) then acc ++ [w] else acc) concepts
    else concepts
  concepts.take 40

/-- The fallback sentences of `src/main.py` lines 85–90. -/
def fallbackSentences (topic : String) : List String :=
  [topic ++ " is an important concept in computer science",
   topic ++ " is widely used in modern systems",
   topic ++ " plays a major role in engineering",
   topic ++ " is studied extensively in academia"]

/-- The fallback concepts of `src/main.py` line 94. -/
def fallbackConcepts : List String :=
  ["Algorithm", "Model", "System", "Data", "Process"]

/-- Python `text.split(".")`: split at every period, keeping empty pieces. -/
def pySplitDotAux : List Char → List Char → List String
  | [], acc => [String.mk acc.reverse]
  | c :: rest, acc =>
    if c = '.' then String.mk acc.reverse :: pySplitDotAux rest []
    else pySplitDotAux rest (c :: acc)

/-- Python `text.split(".")` on a string. -/
def pySplitDot (s : String) : List String :=
  pySplitDotAux s.data []

/-- Python `s.strip()`: drop leading and trailing whitespace. -/
def pyStrip (s : String) : String :=
  String.mk (((s.data.dropWhile Char.isWhitespace).reverse.dropWhile Char.isWhitespace).reverse)

/-- Sentence extraction of `src/main.py` line 82: split on periods, keep
pieces of 8 to 25 whitespace-separated words, stripped. -/
def mcqSentences (text : String) : List String :=
  ((pySplitDot text).filter
    (fun s => decide (8 ≤ (pyWords s).length) && decide ((pyWords s).length ≤ 25))).map
    pyStrip

/-- `random.sample(l, k)` driven by the oracle: `k` draws without
replacement, each index taken modulo the remaining length. -/
def pySample (l : List String) (k : Nat) (oracle : Nat → Nat) (i : Nat) : List String :=
  match k with
  | 0 => []
  | k' + 1 =>
    match l.get? (oracle i % l.length) with
    | none => []
    | some x => x :: pySample (l.eraseIdx (oracle i % l.length)) k' oracle (i + 1)

/-- `random.shuffle` driven by the oracle: an oracle-chosen permutation. -/
def pyShuffleAux : Nat → List String → (Nat → Nat) → Nat → List String
  | 0, _, _, _ => []
  | n + 1, l, oracle, i =>
    match l.get? (oracle i % l.length) with
    | none => []
    | some x => x :: pyShuffleAux n (l.eraseIdx (oracle i % l.length)) oracle (i + 1)

/-- `random.shuffle` driven by the oracle. -/
def pyShuffle (l : List String) (oracle : Nat → Nat) (i : Nat) : List String :=
  pyShuffleAux l.length l oracle i

/-- The `while len(quiz) < count` loop of `src/main.py` lines 98–121, with
explicit fuel (one unit per iteration) and the random choices driven by the
oracle.  `none` means the loop has not exited within the given fuel; the
Python loop has no other exit, so a `none` for every fuel is a loop that
never terminates. -/
def mcqLoop (sentences concepts : List String) (count : Nat) (oracle : Nat → Nat) :
    Nat → Nat → List Question → List String → Option (List Question)
  | 0, _, quiz, _ => if count ≤ quiz.length then some quiz else none
  | fuel + 1, k, quiz, used =>
    if count ≤ quiz.length then some quiz
    else
      match sentences.get? (oracle k % sentences.length) with
      | none => none
      | some s =>
        let valid := concepts.filter (fun c => pySubstr c.data s.data && !(used.contains c))
        match valid with
        | [] => mcqLoop sentences concepts count oracle fuel (k + 1) quiz used
        | ans :: _ =>
          let used' := used ++ [ans]
          let distractors := concepts.filter (fun c => c != ans)
          if distractors.length < 3 then
            mcqLoop sentences concepts count oracle fuel (k + 1) quiz used'
          else
            let options := pyShuffle (pySample distractors 3 oracle (k + 1) ++ [ans]) oracle (k + 4)
            let q : Question := ⟨(s.replace ans "_____") ++ "?", options, ans⟩
            mcqLoop sentences concepts count oracle fuel (k + 9) (quiz ++ [q]) used'

/-- `generate_mcqs` (`src/main.py` lines 80–121).  `wikiText` is the raw
text produced by the external `wiki_text` call (empty when the source is
unavailable), `oracle` drives the `random` calls, `fuel` bounds the number
of loop iterations. -/
def generate_mcqs (topic : String) (count : Nat) (wikiText : String) (oracle : Nat → Nat)
    (fuel : Nat) : Option (List Question) :=
  let text := clean wikiText
  let sentences0 := mcqSentences text
  let sentences := if sentences0.isEmpty then fallbackSentences topic else sentences0
  let concepts0 := extract_concepts text
  let concepts := if concepts0.length < 4 then fallbackConcepts else concepts0
  mcqLoop sentences concepts count oracle fuel 0 [] []

/-- `create_room` (`src/main.py` lines 125–137): generate the quiz, then
install a fresh room under a new code.  Returns `none` exactly when the
generator's loop does not finish within the fuel. -/
def create_room (topic : String) (count : Nat) (wikiText : String) (oracle : Nat → Nat)
    (fuel : Nat) : Option Room :=
  (generate_mcqs topic count wikiText oracle fuel).map mkRoom

/-- The leaderboard carried by a `state` response (empty for the
participant-list response of a not-yet-started room). -/
def respLeaderboard : StateResp → List LBEntry
  | .roomEnded lb => lb
  | .notStarted _ => []
  | .active _ _ _ _ _ lb => lb

/-! ### Helper lemmas about the dict embedding -/

/-- Looking up the key just inserted returns the inserted value. -/
theorem dictGet_dictInsert (k : String) (v : Student) (l : List (String × Student)) :
    dictGet k (dictInsert k v l) = some v := by
  induction l with
  | nil => simp [dictGet, dictInsert]
  | cons p rest ih =>
    by_cases h : p.1 = k
    · simp [dictGet, dictInsert, h]
    · simp [dictGet, dictInsert, h, ih]

/-- A successful lookup exhibits a member of the association list. -/
theorem dictGet_mem {k : String} {s : Student} :
    ∀ {l : List (String × Student)}, dictGet k l = some s → (k, s) ∈ l := by
  intro l
  induction l with
  | nil => intro h; simp [dictGet] at h
  | cons p rest ih =>
    obtain ⟨k', v⟩ := p
    simp only [dictGet]
    by_cases h : k' = k
    · rw [if_pos h]
      intro he
      injection he with hv
      have hp : (k, s) = (k', v) := by rw [h, hv]
      rw [hp]
      exact List.mem_cons_self _ _
    · rw [if_neg h]
      intro he
      exact List.mem_cons_of_mem _ (ih he)

/-- Every member of `dictInsert k v l` is the new pair or an old member. -/
theorem mem_dictInsert {p : String × Student} {k : String} {v : Student} :
    ∀ {l : List (String × Student)}, p ∈ dictInsert k v l → p = (k, v) ∨ p ∈ l := by
  intro l
  induction l with
  | nil => intro h; simp [dictInsert] at h; exact Or.inl h
  | cons q rest ih =>
    simp only [dictInsert]
    by_cases h : q.1 = k
    · rw [if_pos h]
      intro hm
      rcases List.mem_cons.mp hm with h1 | h1
      · exact Or.inl h1
      · exact Or.inr (List.mem_cons_of_mem _ h1)
    · rw [if_neg h]
      intro hm
      rcases List.mem_cons.mp hm with h1 | h1
      · exact Or.inr (h1 ▸ List.mem_cons_self q rest)
      · rcases ih h1 with h2 | h2
        · exact Or.inl h2
        · exact Or.inr (List.mem_cons_of_mem _ h2)

/-- On a dict with distinct keys, mapping a function over the values and
looking up the key of a member yields that member's image. -/
theorem dictGet_map_of_mem_nodup (f : Student → Student) {nm : String} {s : Student} :
    ∀ {l : List (String × Student)}, (l.map Prod.fst).Nodup → (nm, s) ∈ l →
      dictGet nm (l.map (fun p => (p.1, f p.2))) = some (f s) := by
  intro l
  induction l with
  | nil => intro _ hm; simp at hm
  | cons p rest ih =>
    obtain ⟨k', v⟩ := p
    intro hnd hm
    have hnd' : (∀ x : Student, (k', x) ∉ rest) ∧ (rest.map Prod.fst).Nodup := by
      simpa using hnd
    rcases List.mem_cons.mp hm with h1 | h1
    · cases h1
      simp [dictGet]
    · have hk : ¬ k' = nm := by
        intro hk
        exact hnd'.1 s (by rw [hk]; exact h1)
      simp only [List.map_cons, dictGet, if_neg hk]
      exact ih hnd'.2 h1

/-! ### Concrete fixtures used by witnesses and counterexamples -/

/-- A question used by concrete checks. -/
def sampleQ : Question := ⟨"what?", ["A", "B", "C", "D"], "A"⟩

/-- A started one-question room whose window opened at time 0, with one
student who has not answered. -/
def lateRoom : Room :=
  { quiz := [sampleQ], students := [("a", ⟨0, false, [], [], some 0⟩)], current := 0,
    started := true, ended := false, duration := 30, start_time := some 0 }

/-- A started room whose quiz is empty (created with count 0). -/
def emptyQuizRoom : Room :=
  { quiz := [], students := [("a", ⟨0, false, [], [], some 0⟩)], current := 0,
    started := true, ended := false, duration := 30, start_time := some 0 }

/-- A room with a joined participant that has not been started yet:
the participant's `q_start` is still `None`. -/
def unstartedRoom : Room :=
  { quiz := [sampleQ], students := [("a", ⟨0, false, [], [], none⟩)], current := 0,
    started := false, ended := false, duration := 30, start_time := none }

/-- A room that has ended: `current` equals the quiz length and the last
advance has reset the student's `answered` flag. -/
def finishedRoom : Room :=
  { quiz := [sampleQ], students := [("a", ⟨0, false, [30], [⟨"what?", none, "A", false⟩], some 30⟩)],
    current := 1, started := true, ended := true, duration := 30, start_time := some 0 }

/-! ### Lemmas about the generator loop -/

/-- One iteration of the generator loop in which the chosen sentence (any
choice the oracle can make) yields no usable concept: the loop just retries,
with the quiz and the used set unchanged. -/
theorem mcqLoop_continue (sentences concepts : List String) (count : Nat) (oracle : Nat → Nat)
    (n k : Nat) (quiz : List Question) (used : List String)
    (hcount : ¬ count ≤ quiz.length) (hne : sentences ≠ [])
    (hval : ∀ s ∈ sentences,
      concepts.filter (fun c => pySubstr c.data s.data && !(used.contains c)) = []) :
    mcqLoop sentences concepts count oracle (n + 1) k quiz used =
      mcqLoop sentences concepts count oracle n (k + 1) quiz used := by
  have hlen : 0 < sentences.length := List.length_pos.mpr hne
  have hidx : oracle k % sentences.length < sentences.length := Nat.mod_lt _ hlen
  have hget : sentences.get? (oracle k % sentences.length) =
      some (sentences.get ⟨oracle k % sentences.length, hidx⟩) := List.get?_eq_get hidx
  have hmem : sentences.get ⟨oracle k % sentences.length, hidx⟩ ∈ sentences :=
    List.get_mem _ _ _
  simp only [mcqLoop, if_neg hcount, hget]
  rw [hval _ hmem]

/-- With topic `"Foo"` and no source text, no fallback sentence contains any
fallback concept, so the generator loop never produces a question and never
reaches its exit condition, whatever the oracle chooses and however much
fuel it is given. -/
theorem mcqLoop_foo_none (oracle : Nat → Nat) :
    ∀ fuel k : Nat,
      mcqLoop (fallbackSentences "Foo") fallbackConcepts 1 oracle fuel k [] [] = none := by
  intro fuel
  induction fuel with
  | zero => intro k; rfl
  | succ n ih =>
    intro k
    rw [mcqLoop_continue]
    · exact ih (k + 1)
    · decide
    · decide
    · decide

/-! ### Claim theorems -/

/-- Claim C5: the claim says `generate_mcqs` always terminates, falling back
to a synthetic quiz on any internal failure.  With topic `"Foo"`, requested
count 1 and an unavailable source text (`wiki_text` returns the empty
string), the fallback sentences contain none of the fallback concepts, so
`valid` is empty on every iteration and the `while len(quiz) < count` loop
of lines 98–121 never terminates: the loop embedding returns `none` for
every fuel bound and every behaviour of `random.choice`. -/
theorem C5_generator_nonterminating :
    ∀ (fuel : Nat) (oracle : Nat → Nat), generate_mcqs "Foo" 1 "" oracle fuel = none := by
  intro fuel oracle
  have h : generate_mcqs "Foo" 1 "" oracle fuel =
      mcqLoop (fallbackSentences "Foo") fallbackConcepts 1 oracle fuel 0 [] [] := rfl
  rw [h]
  exact mcqLoop_foo_none oracle fuel 0

/-- Claim C6: a second submission by the same participant for the same
question is accepted (`ok`) and changes nothing: once a first submission has
returned `ok`, submitting again — any answer, any time — returns the very
same room unchanged, so score, times and answers stay exactly as after the
first submission. -/
theorem C6_submit_idempotent (r r1 : Room) (nm : String) (ans ans2 : Option String)
    (now now2 : Int)
    (h : submit r nm ans now = some (r1, SubmitResp.ok)) :
    submit r1 nm ans2 now2 = some (r1, SubmitResp.ok) := by
  have key : ∃ s1, dictGet nm r1.students = some s1 ∧ s1.answered = true := by
    unfold submit at h
    cases hg : dictGet nm r.students with
    | none => simp only [hg] at h; simp at h
    | some s =>
      simp only [hg] at h
      by_cases ha : s.answered = true
      · rw [if_pos ha] at h
        have h1 : (r, SubmitResp.ok) = (r1, SubmitResp.ok) := Option.some.inj h
        have hr : r = r1 := congrArg Prod.fst h1
        exact ⟨s, hr ▸ hg, ha⟩
      · rw [if_neg ha] at h
        cases hq : r.quiz.get? r.current with
        | none => simp only [hq] at h; simp at h
        | some q =>
          simp only [hq] at h
          cases hqs : s.q_start with
          | none => simp only [hqs] at h; simp at h
          | some qs =>
            simp only [hqs] at h
            have h1 := Option.some.inj h
            have hr := congrArg Prod.fst h1
            subst hr
            exact ⟨_, dictGet_dictInsert nm _ r.students, rfl⟩
  obtain ⟨s1, hg1, ha1⟩ := key
  unfold submit
  simp only [hg1]
  rw [if_pos ha1]

/-- Witness for C6 at a concrete input: after the student of `lateRoom`
submits the correct answer at time 3, a second submission at time 9 with a
different answer returns the same room unchanged. -/
theorem C6_submit_idempotent_witness :
    submit
      { lateRoom with
        students := [("a", ⟨1, true, [3], [⟨"what?", some "A", "A", true⟩], some 0⟩)] }
      "a" (some "B") 9 =
    some
      ({ lateRoom with
         students := [("a", ⟨1, true, [3], [⟨"what?", some "A", "A", true⟩], some 0⟩)] },
       SubmitResp.ok) :=
  C6_submit_idempotent lateRoom _ "a" (some "A") (some "B") 3 9 (by decide)

/-- Claim C1, counterexample.  The claim says every leaderboard entry of an
advancing inspection has `total_time` equal to the sum of the student's
`times` after the step-1 timeout entries are appended.  At `lateRoom`
inspected at time 30 the advance appends the timeout entry (the student's
post-advance `times` sum to 30), yet the returned entry's `total_time` is 0,
because the source assembles the leaderboard at lines 201–209, before the
advance of lines 223–246. -/
theorem C1_leaderboard_counterexample :
    (state lateRoom 30).map
        (fun p => (p.1.students.map (fun q => q.2.times.sum),
                   (respLeaderboard p.2).map (fun e => e.total_time))) =
      some ([30], [0]) ∧ (30 : Int) ≠ 0 := by
  exact ⟨by decide, by decide⟩

/-- Claim C2: inspecting a started room with an empty quiz should return the
ENDED snapshot rather than index out of range.  The code instead evaluates
`r["quiz"][r["current"]]` on the empty quiz (line 224 when the window has
expired, line 248 otherwise) and raises IndexError, embedded here as `none`,
at every inspection time. -/
theorem C2_empty_quiz_crash : ∀ now : Int, state emptyQuizRoom now = none := by
  intro now
  have h : state emptyQuizRoom now =
      (if (30 : Int) - (now - 0) ≤ 0 then none else none) := rfl
  rw [h, ite_self]

/-- Claim C3: `submit` is claimed to return a soft result on a room that has
not been started and on a room that has ended.  It instead raises: with an
unstarted room the student's `q_start` is `None` and line 179 raises
TypeError; with an ended room `current` equals the quiz length and line 178
raises IndexError.  Both are embedded as `none`. -/
theorem C3_submit_crash :
    submit unstartedRoom "a" (some "A") 5 = none ∧
    submit finishedRoom "a" (some "A") 99 = none :=
  ⟨rfl, rfl⟩

/-- Claim C4: the claim says a participant joining after the room has
started gets `q_start` stamped to the join moment.  `join_room`
(line 144–150) instead always installs the record
`{score 0, answered false, times [], answers [], q_start None}` — in
particular `q_start` is `None`, not the join time, whatever the state of
the room; the second conjunct shows it on a concrete started room. -/
theorem C4_join_q_start_unset :
    (∀ (r : Room) (nm : String),
      dictGet nm (join_room r nm).students = some ⟨0, false, [], [], none⟩) ∧
    dictGet "b" (join_room (start_quiz lateRoom 10) "b").students =
      some ⟨0, false, [], [], none⟩ :=
  ⟨fun r nm => dictGet_dictInsert nm _ r.students, rfl⟩

/-- Invariant a faithful trace maintains: `len(times) == len(answers)` for
every student of the room. -/
def studentsAligned (r : Room) : Prop :=
  ∀ p ∈ r.students, p.2.times.length = p.2.answers.length

instance (r : Room) : Decidable (studentsAligned r) := by
  unfold studentsAligned; infer_instance

/-- What a successful `submit` can do to the room: every field but
`students` is untouched, and `students` is either unchanged (soft error or
duplicate submission) or has the one submitting student extended by one
`times` entry and one `answers` record. -/
theorem submit_some_spec {r r' : Room} {resp : SubmitResp} {nm : String}
    {ans : Option String} {now : Int}
    (h : submit r nm ans now = some (r', resp)) :
    r'.quiz = r.quiz ∧ r'.current = r.current ∧ r'.started = r.started ∧
    r'.ended = r.ended ∧ r'.duration = r.duration ∧ r'.start_time = r.start_time ∧
    (r'.students = r.students ∨
      ∃ s, dictGet nm r.students = some s ∧ s.answered = false ∧
        ∃ q e, r.quiz.get? r.current = some q ∧
          r'.students = dictInsert nm
            { s with times := s.times ++ [e],
                     answers := s.answers ++ [⟨q.q, ans, q.answer, decide (ans = some q.answer)⟩],
                     score := s.score + (if ans = some q.answer then 1 else 0),
                     answered := true } r.students) := by
  unfold submit at h
  cases hg : dictGet nm r.students with
  | none =>
    simp only [hg] at h
    have h1 := Option.some.inj h
    have hr : r = r' := congrArg Prod.fst h1
    subst hr
    exact ⟨rfl, rfl, rfl, rfl, rfl, rfl, Or.inl rfl⟩
  | some s =>
    simp only [hg] at h
    by_cases ha : s.answered = true
    · rw [if_pos ha] at h
      have h1 := Option.some.inj h
      have hr : r = r' := congrArg Prod.fst h1
      subst hr
      exact ⟨rfl, rfl, rfl, rfl, rfl, rfl, Or.inl rfl⟩
    · rw [if_neg ha] at h
      cases hq : r.quiz.get? r.current with
      | none => simp only [hq] at h; simp at h
      | some q =>
        simp only [hq] at h
        cases hqs : s.q_start with
        | none => simp only [hqs] at h; simp at h
        | some qs =>
          simp only [hqs] at h
          have h1 := Option.some.inj h
          have hr := congrArg Prod.fst h1
          subst hr
          refine ⟨rfl, rfl, rfl, rfl, rfl, rfl, Or.inr ⟨s, rfl, by simpa using ha, q, now - qs, rfl, ?_⟩⟩
          rw [← hqs]

/-- What the advance of lines 223–246 produces, when an inspection at `now`
finds the window expired on a live question: every student is put through
`advanceStudent`, `current` is incremented, and the response's leaderboard
is the one assembled from the PRE-advance students (lines 201–209), with
only its `answers` lists showing the post-advance contents by aliasing. -/
theorem state_advance_spec (r : Room) (now st : Int) (q : Question)
    (he : r.ended = false) (hs : r.started = true) (hst : r.start_time = some st)
    (hrem : r.duration - (now - st) ≤ 0) (hq : r.quiz.get? r.current = some q) :
    ∃ r' resp, state r now = some (r', resp) ∧
      r'.students = r.students.map (fun p => (p.1, advanceStudent r.duration q now p.2)) ∧
      r'.current = r.current + 1 ∧
      respLeaderboard resp = refreshAnswers (leaderboard r.students) r'.students := by
  unfold state
  simp only [he, hs, hst, hrem, hq, Bool.false_eq_true, if_false, if_true, ite_true, ite_false,
    Bool.true_eq_false, if_pos, reduceIte]
  by_cases hlen : r.quiz.length ≤ r.current + 1
  · rw [if_pos hlen]
    exact ⟨_, _, rfl, rfl, rfl, rfl⟩
  · rw [if_neg hlen]
    have hlt : r.current + 1 < r.quiz.length := by omega
    have hq2 : r.quiz.get? (r.current + 1) = some (r.quiz.get ⟨r.current + 1, hlt⟩) :=
      List.get?_eq_get hlt
    rw [hq2]
    exact ⟨_, _, rfl, rfl, rfl, rfl⟩

/-- Every successful inspection either leaves the room untouched or
performs exactly one advance: `current` goes up by one and every student is
put through the advance bookkeeping — and an advance only happens on a room
that has not ended. -/
theorem state_some_spec {r r' : Room} {resp : StateResp} {now : Int}
    (h : state r now = some (r', resp)) :
    r' = r ∨
    (r.ended = false ∧ r'.current = r.current + 1 ∧
      ∃ q, r.quiz.get? r.current = some q ∧
        r'.students = r.students.map (fun p => (p.1, advanceStudent r.duration q now p.2))) := by
  by_cases he : r.ended = true
  · left
    unfold state at h
    simp [he] at h
    exact h.1.symm
  · have he' : r.ended = false := by simpa using he
    by_cases hs : r.started = true
    · cases hst : r.start_time with
      | none =>
        unfold state at h
        simp [he', hs, hst] at h
      | some st =>
        by_cases hrem : r.duration - (now - st) ≤ 0
        · cases hq : r.quiz.get? r.current with
          | none =>
            have hqE : r.quiz[r.current]? = none := by
              rw [← List.get?_eq_getElem?]; exact hq
            unfold state at h
            simp [he', hs, hst, hrem, hqE] at h
          | some q =>
            right
            obtain ⟨r'0, resp0, heq, hstu, hcur, hresp⟩ :=
              state_advance_spec r now st q he' hs hst hrem hq
            rw [heq] at h
            have h1 := Option.some.inj h
            have hr : r'0 = r' := congrArg Prod.fst h1
            subst hr
            exact ⟨he', hcur, q, rfl, hstu⟩
        · left
          cases hq : r.quiz.get? r.current with
          | none =>
            have hqE : r.quiz[r.current]? = none := by
              rw [← List.get?_eq_getElem?]; exact hq
            unfold state at h
            simp [he', hs, hst, hrem, hqE] at h
          | some q2 =>
            have hqE : r.quiz[r.current]? = some q2 := by
              rw [← List.get?_eq_getElem?]; exact hq
            unfold state at h
            simp [he', hs, hst, hrem, hqE] at h
            exact h.1.symm
    · left
      have hs' : r.started = false := by simpa using hs
      unfold state at h
      simp [he', hs'] at h
      exact h.1.symm

/-- The advance bookkeeping keeps a student's `times` and `answers` the
same length: either both grow by one (timeout entry) or neither does. -/
theorem advanceStudent_aligned (dur : Int) (q : Question) (now : Int) {s : Student}
    (h : s.times.length = s.answers.length) :
    (advanceStudent dur q now s).times.length = (advanceStudent dur q now s).answers.length := by
  unfold advanceStudent
  by_cases ha : s.answered = true
  · simp [ha, h]
  · simp [ha, h]

/-- Each single operation preserves the times/answers alignment of every
student. -/
theorem applyOp_aligned {r : Room} (h : studentsAligned r) (op : Op) :
    studentsAligned (applyOp r op) := by
  cases op with
  | join nm =>
    intro p hp
    rcases mem_dictInsert hp with h1 | h1
    · rw [h1]
      rfl
    · exact h p h1
  | start now =>
    intro p hp
    obtain ⟨p0, hp0, rfl⟩ := List.mem_map.mp hp
    exact h p0 hp0
  | submitOp nm ans now =>
    cases hsub : submit r nm ans now with
    | none =>
      intro p hp
      apply h
      simpa [applyOp, hsub] using hp
    | some pr =>
      obtain ⟨-, -, -, -, -, -, hstu⟩ := submit_some_spec hsub
      intro p hp
      have hp' : p ∈ pr.1.students := by simpa [applyOp, hsub] using hp
      rcases hstu with h1 | ⟨s, hg, -, q, e, -, h2⟩
      · exact h p (h1 ▸ hp')
      · rw [h2] at hp'
        rcases mem_dictInsert hp' with h3 | h3
        · have hsal := h (nm, s) (dictGet_mem hg)
          rw [h3]
          simp only []
          simp [List.length_append, hsal]
        · exact h p h3
  | inspect now =>
    cases hst : state r now with
    | none =>
      intro p hp
      apply h
      simpa [applyOp, hst] using hp
    | some pr =>
      rcases state_some_spec hst with h1 | ⟨-, -, q, hq, hstu⟩
      · intro p hp
        have hp' : p ∈ pr.1.students := by simpa [applyOp, hst] using hp
        exact h p (h1 ▸ hp')
      · intro p hp
        have hp' : p ∈ pr.1.students := by simpa [applyOp, hst] using hp
        rw [hstu] at hp'
        obtain ⟨p0, hp0, rfl⟩ := List.mem_map.mp hp'
        exact advanceStudent_aligned _ _ _ (h p0 hp0)

/-- Each single operation never decreases `current`, and on an ended room
leaves both `current` and `ended` untouched. -/
theorem applyOp_spec (r : Room) (op : Op) :
    r.current ≤ (applyOp r op).current ∧
    (r.ended = true → (applyOp r op).current = r.current ∧ (applyOp r op).ended = true) := by
  cases op with
  | join nm => exact ⟨le_rfl, fun hE => ⟨rfl, hE⟩⟩
  | start now => exact ⟨le_rfl, fun hE => ⟨rfl, hE⟩⟩
  | submitOp nm ans now =>
    cases hsub : submit r nm ans now with
    | none =>
      simp only [applyOp, hsub]
      exact ⟨le_rfl, fun hE => ⟨by trivial, hE⟩⟩
    | some pr =>
      obtain ⟨-, hcur, -, hend, -, -, -⟩ := submit_some_spec hsub
      simp only [applyOp, hsub]
      exact ⟨le_of_eq hcur.symm, fun hE => ⟨hcur, by rw [hend]; exact hE⟩⟩
  | inspect now =>
    cases hst : state r now with
    | none =>
      simp only [applyOp, hst]
      exact ⟨le_rfl, fun hE => ⟨by trivial, hE⟩⟩
    | some pr =>
      simp only [applyOp, hst]
      rcases state_some_spec hst with h1 | ⟨hef, hcur, -⟩
      · rw [h1]
        exact ⟨le_rfl, fun hE => ⟨by trivial, hE⟩⟩
      · constructor
        · rw [hcur]; omega
        · intro hE
          rw [hef] at hE
          exact absurd hE (by simp)

/-- Claim C7: in every room reachable by any sequence of engine operations
from a room satisfying it, every student's `times` and `answers` sequences
have equal length — join installs two empty lists, submit appends to both,
and the inspection advance appends a timeout entry to both. -/
theorem C7_times_answers_aligned (r : Room) (h : studentsAligned r) (ops : List Op) :
    studentsAligned (applyOps r ops) := by
  induction ops generalizing r with
  | nil => exact h
  | cons op rest ih => exact ih _ (applyOp_aligned h op)

/-- Witness for C7 at a concrete input: the alignment holds after an
expired-window inspection (which performs the advance) followed by a join
and a submission. -/
theorem C7_times_answers_aligned_witness :
    studentsAligned
      (applyOps lateRoom [Op.inspect 30, Op.join "b", Op.submitOp "a" (some "A") 31]) :=
  C7_times_answers_aligned lateRoom (by decide) _

/-- Claim C8: over every sequence of engine operations, a room's `current`
never decreases, and once `ended` is true no later operation changes
`current` (nor clears `ended`). -/
theorem C8_current_monotone (r : Room) (ops : List Op) :
    r.current ≤ (applyOps r ops).current ∧
    (r.ended = true → (applyOps r ops).current = r.current ∧ (applyOps r ops).ended = true) := by
  induction ops generalizing r with
  | nil => exact ⟨le_rfl, fun hE => ⟨rfl, hE⟩⟩
  | cons op rest ih =>
    have h1 := applyOp_spec r op
    have h2 := ih (applyOp r op)
    constructor
    · exact le_trans h1.1 h2.1
    · intro hE
      obtain ⟨hc1, he1⟩ := h1.2 hE
      obtain ⟨hc2, he2⟩ := h2.2 he1
      refine ⟨?_, he2⟩
      show (applyOps (applyOp r op) rest).current = r.current
      rw [hc2, hc1]

/-- Witness for C8 at a concrete input: on the already-ended `finishedRoom`,
an inspection followed by a join leaves `current` where it was. -/
theorem C8_current_monotone_witness :
    (applyOps finishedRoom [Op.inspect 99, Op.join "z"]).current = finishedRoom.current :=
  ((C8_current_monotone finishedRoom [Op.inspect 99, Op.join "z"]).2 rfl).1

/-- Claim C1, amended: when an inspection performs the advance, `current`
is incremented before the response is assembled, and the returned
leaderboard has one entry per student whose `score` and `total_time` are
the PRE-advance values (so `total_time` omits the step-1 timeout entries),
while the entry's `answers` — shared by reference with the student record —
does show the post-advance history, including the timeout record of every
student who had not answered. -/
theorem C1_amended_snapshot (r r' : Room) (resp : StateResp) (now st : Int) (q : Question)
    (he : r.ended = false) (hs : r.started = true) (hst : r.start_time = some st)
    (hrem : r.duration - (now - st) ≤ 0) (hq : r.quiz.get? r.current = some q)
    (hnd : (r.students.map Prod.fst).Nodup)
    (hstate : state r now = some (r', resp)) :
    r'.current = r.current + 1 ∧
    ∀ nm s, (nm, s) ∈ r.students →
      ∃ e ∈ respLeaderboard resp,
        e.name = nm ∧ e.score = s.score ∧ e.total_time = s.times.sum ∧
        e.answers = (advanceStudent r.duration q now s).answers ∧
        (s.answered = false →
          e.answers = s.answers ++ [⟨q.q, none, q.answer, false⟩]) := by
  obtain ⟨r'0, resp0, heq, hstu, hcur, hresp⟩ := state_advance_spec r now st q he hs hst hrem hq
  rw [heq] at hstate
  have h1 := Option.some.inj hstate
  have hr : r'0 = r' := congrArg Prod.fst h1
  have hre : resp0 = resp := congrArg Prod.snd h1
  subst hr
  subst hre
  refine ⟨hcur, ?_⟩
  intro nm s hm
  have he0 : (⟨nm, s.score, s.times.sum, s.answers⟩ : LBEntry) ∈ lbEntries r.students :=
    List.mem_map.mpr ⟨(nm, s), hm, rfl⟩
  have hlb : (⟨nm, s.score, s.times.sum, s.answers⟩ : LBEntry) ∈ leaderboard r.students :=
    (List.mem_insertionSort lbLe).mpr he0
  have hdg : dictGet nm (r.students.map (fun p => (p.1, advanceStudent r.duration q now p.2))) =
      some (advanceStudent r.duration q now s) :=
    dictGet_map_of_mem_nodup _ hnd hm
  refine ⟨⟨nm, s.score, s.times.sum, (advanceStudent r.duration q now s).answers⟩,
    ?_, rfl, rfl, rfl, rfl, ?_⟩
  · rw [hresp, hstu]
    unfold refreshAnswers
    apply List.mem_map.mpr
    refine ⟨⟨nm, s.score, s.times.sum, s.answers⟩, hlb, ?_⟩
    dsimp only
    rw [hdg]
  · intro hans
    unfold advanceStudent
    simp [hans]

/-- Witness for the amended C1 at a concrete input: the advancing
inspection of `lateRoom` at time 30. -/
theorem C1_amended_snapshot_witness :
    ({ lateRoom with
        students := [("a", ⟨0, false, [30], [⟨"what?", none, "A", false⟩], some 30⟩)],
        current := 1, ended := true } : Room).current = lateRoom.current + 1 ∧
    ∀ nm s, (nm, s) ∈ lateRoom.students →
      ∃ e ∈ respLeaderboard (StateResp.roomEnded [⟨"a", 0, 0, [⟨"what?", none, "A", false⟩]⟩]),
        e.name = nm ∧ e.score = s.score ∧ e.total_time = s.times.sum ∧
        e.answers = (advanceStudent lateRoom.duration sampleQ 30 s).answers ∧
        (s.answered = false →
          e.answers = s.answers ++ [⟨sampleQ.q, none, sampleQ.answer, false⟩]) :=
  C1_amended_snapshot lateRoom _ _ 30 0 sampleQ rfl rfl rfl (by decide) (by decide)
    (by decide) (by decide)

/-- Claim C9: the leaderboard of an inspection is the student entries
sorted with score descending first and total time ascending among equal
scores, and it contains exactly the entries of the student map. -/
theorem C9_leaderboard_sorted (students : List (String × Student)) :
    List.Pairwise
      (fun a b => b.score < a.score ∨ (a.score = b.score ∧ a.total_time ≤ b.total_time))
      (leaderboard students) ∧
    List.Perm (leaderboard students) (lbEntries students) :=
  ⟨List.sorted_insertionSort lbLe (lbEntries students),
   List.perm_insertionSort lbLe (lbEntries students)⟩

end Quizyfi
